import Mathlib

/-!
Verification of `chord_generation.py`: a brute-force chord-progression
generator.  The Python class `Chord_progression_generator` builds a fixed
vocabulary of 24 triads, enumerates all `num_chords`-long progressions via
`itertools.product`, and serializes them to a directory as per-progression
score files (midi/xml, written by the external music21 library, modelled
opaquely) or as one JSON file (written by `json.dump(..., indent=4)`,
modelled at the character level).

Python strings are modelled as `List Char`, Python ints as `Int`, and the
destination directory as an association list from path to file data, in
creation order.
-/

/-- Python strings are modelled as lists of characters. -/
abbrev Str := List Char

/-- `productList pools` models `itertools.product(*pools)`: all tuples whose
i-th component is drawn from `pools[i]`, with the leftmost position varying
slowest (the rightmost pool is exhausted first). `productList [] = [[]]`,
matching `itertools.product()` yielding a single empty tuple. -/
def productList {α : Type} : List (List α) → List (List α)
  | [] => [[]]
  | l :: ls => l.flatMap (fun x => (productList ls).map (fun xs => x :: xs))

/-- The generator object: the three fields assigned by `__init__`. -/
structure Chord_progression_generator where
  major_chord_template : List Int
  minor_chord_template : List Int
  chord_templates : List (List Int)
deriving DecidableEq

/-- `__init__`: major template `[0,4,7]`, minor template `[0,3,7]`, and the
24 chord templates `[[pc+i for pc in template] for i in range(48, 60)]`,
majors first then minors. -/
def Chord_progression_generator.init : Chord_progression_generator :=
  let major_chord_template : List Int := [0, 4, 7]
  let minor_chord_template : List Int := [0, 3, 7]
  let C4 : Nat := 48
  let B4 : Nat := 59
  { major_chord_template := major_chord_template
    minor_chord_template := minor_chord_template
    chord_templates :=
      (List.range' C4 (B4 + 1 - C4)).map
        (fun i => major_chord_template.map (fun pc => pc + (i : Int))) ++
      (List.range' C4 (B4 + 1 - C4)).map
        (fun i => minor_chord_template.map (fun pc => pc + (i : Int))) }

/-- `generate_chord_progressions(self, num_chords)`: the cartesian product of
`self.chord_templates` with itself `num_chords` times (`range(num_chords)` is
empty for `num_chords ≤ 0`).  The method mutates nothing, so it returns the
generator unchanged alongside the list of progressions. -/
def Chord_progression_generator.generate_chord_progressions
    (self : Chord_progression_generator) (num_chords : Int) :
    Chord_progression_generator × List (List (List Int)) :=
  let args := List.replicate num_chords.toNat self.chord_templates
  (self, productList args)

/-- Decimal representation of a natural number, as Python `str` renders it:
`"0"` for zero, otherwise the base-10 digits most significant first. -/
def natRepr (n : Nat) : Str :=
  if n = 0 then ['0'] else ((Nat.digits 10 n).map Nat.digitChar).reverse

/-- Decimal representation of an integer, as Python `str`/`repr` renders it:
an optional leading minus sign followed by the decimal digits. -/
def intRepr (n : Int) : Str :=
  if n < 0 then '-' :: natRepr (-n).toNat else natRepr n.toNat

/-- The numeric value of a decimal digit character. -/
def charVal (c : Char) : Nat := c.toNat - 48

/-- The natural number denoted by a most-significant-first digit string. -/
def digitsVal (ds : Str) : Nat := Nat.ofDigits 10 ((ds.map charVal).reverse)

/-- The whitespace characters `json.load` skips between tokens. -/
def isJsonWs (c : Char) : Bool :=
  c == ' ' || c == '\n' || c == '\t' || c == '\r'

/-- Skip leading JSON whitespace. -/
def skipWs : Str → Str
  | [] => []
  | c :: cs => if isJsonWs c then skipWs cs else c :: cs

/-- Split off the maximal run of leading decimal digits. -/
def takeDigits : Str → Str × Str
  | [] => ([], [])
  | c :: cs =>
    if c.isDigit then
      let dr := takeDigits cs
      (c :: dr.1, dr.2)
    else ([], c :: cs)

/-- Parse one JSON integer (optional minus sign, then digits) after
whitespace, returning the value and the unconsumed remainder. -/
def parseInt (s : Str) : Option (Int × Str) :=
  let t := skipWs s
  if t.head? = some '-' then
    let dr := takeDigits t.tail
    if dr.1 = [] then none else some (-(digitsVal dr.1 : Int), dr.2)
  else
    let dr := takeDigits t
    if dr.1 = [] then none else some ((digitsVal dr.1 : Int), dr.2)

/-- Parse the continuation of a JSON array after its first element: either
the closing bracket, or a comma followed by the next element, repeated.
`fuel` bounds the number of steps; it is instantiated with more fuel than
there are remaining elements. -/
def parseListAux {α : Type} (pe : Str → Option (α × Str)) :
    Nat → List α → Str → Option (List α × Str)
  | 0, _, _ => none
  | fuel + 1, acc, s =>
    let t := skipWs s
    if t.head? = some ']' then some (acc.reverse, t.tail)
    else if t.head? = some ',' then
      match pe t.tail with
      | some ar => parseListAux pe fuel (ar.1 :: acc) ar.2
      | none => none
    else none

/-- Parse one JSON array whose elements are parsed by `pe`, after
whitespace: the opening bracket, then either an immediate closing bracket
or the comma-separated elements. -/
def parseListOf {α : Type} (pe : Str → Option (α × Str)) (s : Str) :
    Option (List α × Str) :=
  let t := skipWs s
  if t.head? = some '[' then
    let u := skipWs t.tail
    if u.head? = some ']' then some ([], u.tail)
    else
      match pe t.tail with
      | some ar => parseListAux pe (ar.2.length + 1) [ar.1] ar.2
      | none => none
  else none

/-- Parse one chord: a JSON array of integers. -/
def parseChord (s : Str) : Option (List Int × Str) := parseListOf parseInt s

/-- Parse one progression: a JSON array of chords. -/
def parseProg (s : Str) : Option (List (List Int) × Str) :=
  parseListOf parseChord s

/-- `json.load` on a file holding an array of progressions: parse the
top-level array and require that only whitespace follows. -/
def parseJsonProgs (s : Str) : Option (List (List (List Int))) :=
  match parseListOf parseProg s with
  | some vr => if skipWs vr.2 = [] then some vr.1 else none
  | none => none

/-- Holds when every character is JSON whitespace. -/
def allWs (ws : Str) : Prop := ∀ c ∈ ws, isJsonWs c = true

/-- Holds when the string does not begin with a decimal digit, so a
maximal-munch digit scan stops right before it. -/
def headNotDigit : Str → Prop
  | [] => True
  | c :: _ => c.isDigit = false

/-- Data of one file in the destination directory.  midi/xml files are
written by the external music21 library from a stream holding the
progression's chords in order; their bytes are opaque here, so a score file
is abstracted as the format together with the chords it was built from.
A JSON file is kept as its literal character content. -/
inductive FileData where
  | score (fmt : Str) (prog : List (List Int))
  | text (s : Str)
deriving DecidableEq

/-- The destination directory: an association list from path to file data,
in creation order. -/
abbrev Fs := List (Str × FileData)

/-- `open(path, "w")` followed by a full write: overwrite the file if the
path exists, otherwise create it. -/
def fsWrite (fs : Fs) (path : Str) (d : FileData) : Fs :=
  if fs.any (fun e => decide (e.1 = path)) then
    fs.map (fun e => if e.1 = path then (path, d) else e)
  else fs ++ [(path, d)]

/-- `os.path.join(dir, file)` for the relative file names used here. -/
def pathJoin (dir file : Str) : Str :=
  if dir = [] then file
  else if dir.getLast? = some '/' then dir ++ file
  else dir ++ '/' :: file

/-- `n` spaces, the indentation unit of `json.dump(..., indent=4)`. -/
def spaces (n : Nat) : Str := List.replicate n ' '

/-- The serialization of the second and later elements of a JSON array at
nesting depth `d`: each is preceded by a comma, a newline and the
`4 * (d + 1)`-space element indentation. -/
def dumpTail {α : Type} (dumpE : α → Str) (d : Nat) (as : List α) : Str :=
  as.flatMap (fun b => ',' :: '\n' :: (spaces (4 * (d + 1)) ++ dumpE b))

/-- One level of `json.dump(obj, fp, indent=4)` for a JSON array at nesting
depth `d`: `[]` for an empty array, otherwise each element on its own line
indented by `4 * (d + 1)` spaces, elements separated by commas, and the
closing bracket indented by `4 * d` spaces. -/
def dumpList {α : Type} (dumpE : α → Str) (d : Nat) : List α → Str
  | [] => ['[', ']']
  | a :: as =>
    '[' :: '\n' :: (spaces (4 * (d + 1)) ++ dumpE a ++ dumpTail dumpE d as ++
      '\n' :: (spaces (4 * d) ++ [']']))

/-- A chord (innermost array, depth 2) as `json.dump` renders it. -/
def dumpChord (c : List Int) : Str := dumpList intRepr 2 c

/-- A progression (array of chords, depth 1) as `json.dump` renders it. -/
def dumpProg (p : List (List Int)) : Str := dumpList dumpChord 1 p

/-- `json.dump(chord_progressions, fp, indent=4)`: the full character
content of `chord_progressions.json`. -/
def dumpJson (progs : List (List (List Int))) : Str := dumpList dumpProg 0 progs

/-- `_save_chord_progression(self, chord_progression, file_path, file_type)`:
builds a music21 stream from the chords and writes it to `file_path`.  The
music21 serialization is opaque; the written file is recorded as a score
carrying the format and the chords. -/
def Chord_progression_generator._save_chord_progression
    (self : Chord_progression_generator) (chord_progression : List (List Int))
    (file_path : Str) (file_type : Str) (fs : Fs) : Fs :=
  fsWrite fs file_path (FileData.score file_type chord_progression)

/-- One iteration of the midi/xml saving loop: write progression `ip.2`
(at enumeration index `ip.1`) to `<dir_path>/<index>.<file_type>` and
remember that path as the most recently assigned `file_path`. -/
def saveStep (self : Chord_progression_generator) (dir_path file_type : Str)
    (st : Fs × Option Str) (ip : Nat × List (List Int)) : Fs × Option Str :=
  let file_name := natRepr ip.1 ++ '.' :: file_type
  let file_path := pathJoin dir_path file_name
  (self._save_chord_progression ip.2 file_path file_type st.1, some file_path)

/-- `save_chord_progressions(self, chord_progressions, dir_path, file_type)`.
The `Option Str` result models the local variable `file_path` at the final
`print`: `some p` when the success notice prints path `p`, `none` when
`file_path` was never assigned and the `print` raises an unbound-variable
error (no branch ran, or the midi/xml loop had nothing to iterate).  The
method mutates no field, so the generator is returned unchanged. -/
def Chord_progression_generator.save_chord_progressions
    (self : Chord_progression_generator) (chord_progressions : List (List (List Int)))
    (dir_path : Str) (file_type : Str) (fs : Fs) :
    Chord_progression_generator × Fs × Option Str :=
  if file_type = "midi".data ∨ file_type = "xml".data then
    let res := chord_progressions.enum.foldl (saveStep self dir_path file_type) (fs, none)
    (self, res.1, res.2)
  else if file_type = "json".data then
    let file_path := pathJoin dir_path "chord_progressions.json".data
    (self, fsWrite fs file_path (FileData.text (dumpJson chord_progressions)), some file_path)
  else
    (self, fs, none)

/-- The minimum element of a chord, used to express interval patterns. -/
def chordMin (t : List Int) : Int := (t.min?).getD 0

/-- The intervals of a chord relative to its minimum element. -/
def chordIntervals (t : List Int) : List Int := t.map (fun p => p - chordMin t)

/-- Claim C2: the vocabulary built by the constructor is the ordered
24-element list whose element `i` (0 ≤ i ≤ 11) is the major triad
`[48+i, 52+i, 55+i]` and whose element `12+i` is the minor triad
`[48+i, 51+i, 55+i]`; every template has intervals `[0,4,7]` or `[0,3,7]`
relative to its minimum element, with exactly 12 of each quality and no
duplicates. -/
theorem vocabulary_shape :
    Chord_progression_generator.init.chord_templates.length = 24 ∧
    (∀ i : Fin 12,
      Chord_progression_generator.init.chord_templates.getD (i : Nat) [] =
        [48 + ((i : Nat) : Int), 52 + ((i : Nat) : Int), 55 + ((i : Nat) : Int)] ∧
      Chord_progression_generator.init.chord_templates.getD (12 + (i : Nat)) [] =
        [48 + ((i : Nat) : Int), 51 + ((i : Nat) : Int), 55 + ((i : Nat) : Int)]) ∧
    (∀ t ∈ Chord_progression_generator.init.chord_templates,
      chordIntervals t = [0, 4, 7] ∨ chordIntervals t = [0, 3, 7]) ∧
    (Chord_progression_generator.init.chord_templates.countP
      (fun t => decide (chordIntervals t = [0, 4, 7]))) = 12 ∧
    (Chord_progression_generator.init.chord_templates.countP
      (fun t => decide (chordIntervals t = [0, 3, 7]))) = 12 ∧
    Chord_progression_generator.init.chord_templates.Nodup := by
  decide

/-- Claim C4: `generate_chord_progressions(1)` is exactly the 24 vocabulary
templates, each wrapped as a length-1 progression, in vocabulary order:
the 12 major triads with ascending roots, then the 12 minor triads with
ascending roots. -/
theorem generate_one_is_vocabulary :
    (Chord_progression_generator.init.generate_chord_progressions 1).2 =
      (List.range 12).map (fun i => [[48 + (i : Int), 52 + (i : Int), 55 + (i : Int)]]) ++
      (List.range 12).map (fun i => [[48 + (i : Int), 51 + (i : Int), 55 + (i : Int)]]) := by
  decide

/-- Claim C9: for `num_chords ≤ 0`, `range(num_chords)` is empty, so
`itertools.product()` yields the single empty tuple and the method returns
`[[]]` — one empty progression, not an empty list. -/
theorem generate_nonpositive (n : Int) (h : n ≤ 0) :
    (Chord_progression_generator.init.generate_chord_progressions n).2 = [[]] := by
  have ht : n.toNat = 0 := Int.toNat_of_nonpos h
  simp [Chord_progression_generator.generate_chord_progressions, ht, productList]

/-- Witness for C9 at `n = -2`. -/
theorem generate_nonpositive_witness :
    (-2 : Int) ≤ 0 ∧
    (Chord_progression_generator.init.generate_chord_progressions (-2)).2 = [[]] :=
  ⟨by decide, generate_nonpositive (-2) (by decide)⟩

/-- One step of `productList` has length `l.length * P.length`. -/
theorem length_flatMap_cons {α : Type} (l : List α) (P : List (List α)) :
    (l.flatMap (fun x => P.map (fun xs => x :: xs))).length = l.length * P.length := by
  induction l with
  | nil => simp
  | cons a l ih => simp [ih, Nat.succ_mul, Nat.add_comm]

/-- `productList` of `m` copies of a pool `L` has `L.length ^ m` elements. -/
theorem productList_replicate_length {α : Type} (L : List α) (m : Nat) :
    (productList (List.replicate m L)).length = L.length ^ m := by
  induction m with
  | zero => simp [productList]
  | succ m ih =>
    rw [List.replicate_succ]
    show (L.flatMap (fun x => (productList (List.replicate m L)).map
      (fun xs => x :: xs))).length = _
    rw [length_flatMap_cons, ih, pow_succ, Nat.mul_comm]

/-- Every member of `productList ls` has one component per pool. -/
theorem productList_mem_length {α : Type} :
    ∀ {ls : List (List α)} {p : List α}, p ∈ productList ls → p.length = ls.length := by
  intro ls
  induction ls with
  | nil =>
    intro p hp
    simp [productList] at hp
    simp [hp]
  | cons l ls ih =>
    intro p hp
    simp only [productList, List.mem_flatMap, List.mem_map] at hp
    obtain ⟨x, _, q, hq, rfl⟩ := hp
    simp [ih hq]

/-- Indexing a `List.map (x :: ·)` with an in-range index. -/
theorem getD_map_cons {α : Type} (x : α) (P : List (List α)) (k : Nat)
    (hk : k < P.length) :
    (P.map (fun xs => x :: xs)).getD k [] = x :: P.getD k [] := by
  rw [List.getD_eq_getElem _ _ (by simpa using hk), List.getElem_map,
    List.getD_eq_getElem _ _ hk]

/-- The `k`-th tuple of one `productList` step is
`l[k / P.length] :: P[k % P.length]`. -/
theorem flatMap_cons_getD {α : Type} (l : List α) (P : List (List α)) (d : α) :
    ∀ (k : Nat), k < l.length * P.length →
    (l.flatMap (fun x => P.map (fun xs => x :: xs))).getD k [] =
      l.getD (k / P.length) d :: P.getD (k % P.length) [] := by
  induction l with
  | nil => intro k h; simp at h
  | cons a l ih =>
    intro k h
    have hP : 0 < P.length := by
      rcases Nat.eq_zero_or_pos P.length with h0 | h0
      · rw [h0, Nat.mul_zero] at h; omega
      · exact h0
    rw [List.flatMap_cons]
    by_cases hk : k < P.length
    · rw [List.getD_append _ _ _ _ (by simpa using hk), getD_map_cons a P k hk,
        Nat.div_eq_of_lt hk, Nat.mod_eq_of_lt hk, List.getD_cons_zero]
    · have hk2 : P.length ≤ k := Nat.le_of_not_lt hk
      have hb : k - P.length < l.length * P.length := by
        rw [List.length_cons, Nat.succ_mul] at h
        omega
      rw [List.getD_append_right _ _ _ _ (by simpa using hk2), List.length_map]
      rw [ih (k - P.length) hb]
      rw [Nat.div_eq_sub_div hP hk2, Nat.mod_eq_sub_mod hk2, List.getD_cons_succ]

/-- Indexing formula for the full cartesian power: position `p` of tuple `k`
is pool element `(k / L.length ^ (m - 1 - p)) % L.length` — the leftmost
position varies slowest. -/
theorem productList_replicate_getD {α : Type} (L : List α) (d : α) :
    ∀ (m k p : Nat), k < L.length ^ m → p < m →
    ((productList (List.replicate m L)).getD k []).getD p d =
      L.getD ((k / L.length ^ (m - 1 - p)) % L.length) d := by
  intro m
  induction m with
  | zero => intro k p _ hp; omega
  | succ m ih =>
    intro k p hk hp
    have hL : 0 < L.length := by
      rcases Nat.eq_zero_or_pos L.length with h0 | h0
      · rw [h0] at hk; simp at hk
      · exact h0
    have hlen : (productList (List.replicate m L)).length = L.length ^ m :=
      productList_replicate_length L m
    have hbound : k < L.length * (productList (List.replicate m L)).length := by
      rw [hlen, Nat.mul_comm, ← pow_succ]
      exact hk
    rw [List.replicate_succ]
    show ((L.flatMap (fun x => (productList (List.replicate m L)).map
      (fun xs => x :: xs))).getD k []).getD p d = _
    rw [flatMap_cons_getD L _ d k hbound, hlen]
    cases p with
    | zero =>
      have hdiv : k / L.length ^ m < L.length := by
        rw [Nat.div_lt_iff_lt_mul (Nat.pos_pow_of_pos m hL), Nat.mul_comm, ← pow_succ]
        exact hk
      have he : m + 1 - 1 - 0 = m := by omega
      rw [List.getD_cons_zero, he, Nat.mod_eq_of_lt hdiv]
    | succ q =>
      have hq : q < m := by omega
      have hk2 : k % L.length ^ m < L.length ^ m :=
        Nat.mod_lt _ (Nat.pos_pow_of_pos m hL)
      rw [List.getD_cons_succ, ih (k % L.length ^ m) q hk2 hq]
      have he : m + 1 - 1 - (q + 1) = m - 1 - q := by omega
      have hsplit : L.length ^ m =
          L.length ^ (m - 1 - q) * L.length ^ (m - (m - 1 - q)) := by
        rw [← pow_add]
        congr 1
        omega
      have key : (k % L.length ^ m / L.length ^ (m - 1 - q)) % L.length
          = (k / L.length ^ (m - 1 - q)) % L.length := by
        rw [hsplit, Nat.mod_mul_right_div_self]
        exact Nat.mod_mod_of_dvd _ (dvd_pow_self _ (by omega))
      rw [he, key]

/-- Claim C1: for positive `num_chords`, the generator returns exactly
`24 ^ num_chords` progressions, each of length `num_chords`. -/
theorem generate_count_and_length (n : Int) (h : 0 < n) :
    (Chord_progression_generator.init.generate_chord_progressions n).2.length =
      24 ^ n.toNat ∧
    ∀ p ∈ (Chord_progression_generator.init.generate_chord_progressions n).2,
      p.length = n.toNat := by
  have h24 : Chord_progression_generator.init.chord_templates.length = 24 := by decide
  constructor
  · show (productList (List.replicate n.toNat
      Chord_progression_generator.init.chord_templates)).length = _
    rw [productList_replicate_length, h24]
  · intro p hp
    have hl := productList_mem_length hp
    simpa using hl

/-- Witness for C1 at `num_chords = 1`. -/
theorem generate_count_and_length_witness :
    (0 : Int) < 1 ∧
    ((Chord_progression_generator.init.generate_chord_progressions 1).2.length =
        24 ^ (1 : Int).toNat ∧
      ∀ p ∈ (Chord_progression_generator.init.generate_chord_progressions 1).2,
        p.length = (1 : Int).toNat) :=
  ⟨by decide, generate_count_and_length 1 (by decide)⟩

/-- Claim C3: the output is in standard cartesian-product iteration order
over the vocabulary: the progression at index `k` has at position `p` the
vocabulary element of index `(k / 24 ^ (num_chords - 1 - p)) % 24`. -/
theorem generate_product_order (n : Int) (hn : 0 < n) (k p : Nat)
    (hk : k < 24 ^ n.toNat) (hp : p < n.toNat) :
    ((Chord_progression_generator.init.generate_chord_progressions n).2.getD k []).getD p [] =
      Chord_progression_generator.init.chord_templates.getD
        ((k / 24 ^ (n.toNat - 1 - p)) % 24) [] := by
  have h24 : Chord_progression_generator.init.chord_templates.length = 24 := by decide
  show ((productList (List.replicate n.toNat
    Chord_progression_generator.init.chord_templates)).getD k []).getD p [] = _
  rw [productList_replicate_getD _ _ n.toNat k p (by rw [h24]; exact hk) hp, h24]

/-- Witness for C3 at `num_chords = 2`, `k = 30`, `p = 1`: the 30th
2-chord progression ends with vocabulary element `30 % 24 = 6`. -/
theorem generate_product_order_witness :
    (0 : Int) < 2 ∧ 30 < 24 ^ (2 : Int).toNat ∧ 1 < (2 : Int).toNat ∧
    ((Chord_progression_generator.init.generate_chord_progressions 2).2.getD 30 []).getD 1 [] =
      Chord_progression_generator.init.chord_templates.getD
        ((30 / 24 ^ ((2 : Int).toNat - 1 - 1)) % 24) [] :=
  ⟨by decide, by decide, by decide,
    generate_product_order 2 (by decide) 30 1 (by decide) (by decide)⟩

/-- `Nat.digitChar` inverts to the digit value below base 10. -/
theorem charVal_digitChar (d : Nat) (hd : d < 10) :
    charVal (Nat.digitChar d) = d := by
  interval_cases d <;> decide

/-- Every character of `natRepr n` is a decimal digit. -/
theorem natRepr_isDigit (n : Nat) : ∀ c ∈ natRepr n, c.isDigit = true := by
  intro c hc
  unfold natRepr at hc
  by_cases h : n = 0
  · rw [if_pos h] at hc
    simp at hc
    rw [hc]
    decide
  · rw [if_neg h] at hc
    rw [List.mem_reverse, List.mem_map] at hc
    obtain ⟨d, hd, rfl⟩ := hc
    have hlt : d < 10 := Nat.digits_lt_base (by norm_num) hd
    interval_cases d <;> decide

/-- `natRepr n` is never empty. -/
theorem natRepr_ne_nil (n : Nat) : natRepr n ≠ [] := by
  unfold natRepr
  by_cases h : n = 0
  · rw [if_pos h]; simp
  · rw [if_neg h]
    simp
    exact Nat.digits_ne_nil_iff_ne_zero.mpr h

/-- Reading back the decimal representation recovers the number. -/
theorem digitsVal_natRepr (n : Nat) : digitsVal (natRepr n) = n := by
  by_cases h : n = 0
  · subst h; decide
  · unfold natRepr digitsVal
    rw [if_neg h, List.map_reverse, List.reverse_reverse, List.map_map]
    have hmap : (Nat.digits 10 n).map (charVal ∘ Nat.digitChar) = Nat.digits 10 n := by
      conv_rhs => rw [← List.map_id (Nat.digits 10 n)]
      apply List.map_congr_left
      intro d hd
      exact charVal_digitChar d (Nat.digits_lt_base (by norm_num) hd)
    rw [hmap, Nat.ofDigits_digits]

/-- Decimal representation is injective. -/
theorem natRepr_inj {a b : Nat} (h : natRepr a = natRepr b) : a = b := by
  have ha := digitsVal_natRepr a
  rw [h, digitsVal_natRepr] at ha
  omega

/-- `pathJoin` is injective in the file-name argument. -/
theorem pathJoin_right_inj {dir a b : Str} (h : pathJoin dir a = pathJoin dir b) :
    a = b := by
  unfold pathJoin at h
  by_cases h1 : dir = []
  · simpa [h1] using h
  · by_cases h2 : dir.getLast? = some '/'
    · rw [if_neg h1, if_pos h2, if_neg h1, if_pos h2] at h
      exact List.append_cancel_left h
    · rw [if_neg h1, if_neg h2, if_neg h1, if_neg h2] at h
      have h3 := List.append_cancel_left h
      exact (List.cons_eq_cons.mp h3).2

/-- Index-derived file paths collide only at equal indices. -/
theorem path_index_inj {dir ft : Str} {i j : Nat}
    (h : pathJoin dir (natRepr i ++ '.' :: ft) = pathJoin dir (natRepr j ++ '.' :: ft)) :
    i = j := by
  have h2 := pathJoin_right_inj h
  have hlen : (natRepr i).length = (natRepr j).length := by
    have := congrArg List.length h2
    simp at this
    omega
  have := List.append_inj_left h2 hlen
  exact natRepr_inj this

/-- Writing a fresh path appends one entry at the end of the directory. -/
theorem fsWrite_not_mem (fs : Fs) (path : Str) (d : FileData)
    (h : ∀ e ∈ fs, e.1 ≠ path) : fsWrite fs path d = fs ++ [(path, d)] := by
  rw [fsWrite, if_neg]
  simp only [List.any_eq_true, decide_eq_true_eq, not_exists, not_and]
  intro e he
  exact h e he

/-- The midi/xml saving loop, started at index `j` over a directory whose
existing entries use none of the upcoming index-derived paths, appends one
score file per progression, in index order. -/
theorem saveLoop_fs (self : Chord_progression_generator) (dir ft : Str)
    (progs : List (List (List Int))) :
    ∀ (j : Nat) (fs : Fs) (lp : Option Str),
    (∀ e ∈ fs, ∀ i : Nat, j ≤ i → e.1 ≠ pathJoin dir (natRepr i ++ '.' :: ft)) →
    ((progs.enumFrom j).foldl (saveStep self dir ft) (fs, lp)).1 =
      fs ++ (progs.enumFrom j).map
        (fun ip => (pathJoin dir (natRepr ip.1 ++ '.' :: ft), FileData.score ft ip.2)) := by
  induction progs with
  | nil => intro j fs lp _; simp
  | cons p ps ih =>
    intro j fs lp h
    rw [List.enumFrom_cons, List.foldl_cons, List.map_cons]
    have hw := fsWrite_not_mem fs (pathJoin dir (natRepr j ++ '.' :: ft))
      (FileData.score ft p) (fun e he => h e he j le_rfl)
    have hstep : saveStep self dir ft (fs, lp) (j, p) =
        (fs ++ [(pathJoin dir (natRepr j ++ '.' :: ft), FileData.score ft p)],
          some (pathJoin dir (natRepr j ++ '.' :: ft))) := by
      simp only [saveStep, Chord_progression_generator._save_chord_progression]
      rw [hw]
    rw [hstep, ih (j + 1) _ _ ?fresh]
    · rw [List.append_assoc, List.singleton_append]
    case fresh =>
      intro e he i hi
      rcases List.mem_append.mp he with he1 | he2
      · exact h e he1 i (by omega)
      · rw [List.mem_singleton] at he2
        rw [he2]
        intro hcontra
        have := path_index_inj hcontra
        omega

/-- Claim C5: saving `K` progressions as midi or xml into an empty
destination directory writes exactly `K` score files, named by index `0`
through `K-1` with the format as extension, one per progression in index
order, and nothing else. -/
theorem save_midi_xml_files (progs : List (List (List Int))) (dir ft : Str)
    (h : ft = "midi".data ∨ ft = "xml".data) :
    (Chord_progression_generator.init.save_chord_progressions progs dir ft []).2.1 =
      progs.enum.map (fun ip => (pathJoin dir (natRepr ip.1 ++ '.' :: ft),
        FileData.score ft ip.2)) := by
  unfold Chord_progression_generator.save_chord_progressions
  rw [if_pos h]
  show ((progs.enum.foldl (saveStep _ dir ft) (([] : Fs), none)).1) = _
  show ((progs.enumFrom 0).foldl (saveStep _ dir ft) (([] : Fs), none)).1 = _
  rw [saveLoop_fs _ dir ft progs 0 [] none (by intro e he; simp at he)]
  rw [List.nil_append]
  rfl

/-- Witness for C5: two progressions saved as midi yield the files
`0.midi` and `1.midi` in order. -/
theorem save_midi_xml_files_witness :
    ("midi".data = "midi".data ∨ "midi".data = "xml".data) ∧
    (Chord_progression_generator.init.save_chord_progressions
        [[[60, 64, 67]], [[50, 53, 57]]] ['d'] "midi".data []).2.1 =
      ([[[60, 64, 67]], [[50, 53, 57]]] : List (List (List Int))).enum.map
        (fun ip => (pathJoin ['d'] (natRepr ip.1 ++ '.' :: "midi".data),
          FileData.score "midi".data ip.2)) :=
  ⟨Or.inl rfl,
    save_midi_xml_files [[[60, 64, 67]], [[50, 53, 57]]] ['d'] "midi".data (Or.inl rfl)⟩

/-- Overwriting a path with the same data twice equals writing it once. -/
theorem fsWrite_idem (fs : Fs) (p : Str) (d : FileData) :
    fsWrite (fsWrite fs p d) p d = fsWrite fs p d := by
  by_cases h : fs.any (fun e => decide (e.1 = p)) = true
  · have h1 : fsWrite fs p d = fs.map (fun e => if e.1 = p then (p, d) else e) := by
      rw [fsWrite, if_pos h]
    have h2 : (fs.map (fun e => if e.1 = p then (p, d) else e)).any
        (fun e => decide (e.1 = p)) = true := by
      rcases List.any_eq_true.mp h with ⟨e, he, hep⟩
      refine List.any_eq_true.mpr ⟨(p, d), List.mem_map.mpr ⟨e, he, ?_⟩, by simp⟩
      rw [if_pos (of_decide_eq_true hep)]
    have hff : ((fun e : Str × FileData => if e.1 = p then (p, d) else e) ∘
        (fun e : Str × FileData => if e.1 = p then (p, d) else e)) =
        (fun e : Str × FileData => if e.1 = p then (p, d) else e) := by
      funext e
      by_cases hep : e.1 = p
      · simp [Function.comp, hep]
      · simp [Function.comp, hep]
    conv_lhs => rw [h1, fsWrite, if_pos h2]
    rw [List.map_map, hff, h1]
  · have h1 : fsWrite fs p d = fs ++ [(p, d)] := by
      rw [fsWrite, if_neg h]
    have h2 : ((fs ++ [(p, d)]).any (fun e => decide (e.1 = p))) = true := by
      refine List.any_eq_true.mpr
        ⟨(p, d), List.mem_append_right _ (List.mem_singleton.mpr rfl), by simp⟩
    have h3 : fs.map (fun e => if e.1 = p then (p, d) else e) = fs := by
      conv_rhs => rw [← List.map_id fs]
      apply List.map_congr_left
      intro e he
      have hne : ¬(e.1 = p) := by
        intro hep
        rw [List.any_eq_true] at h
        exact h ⟨e, he, decide_eq_true hep⟩
      rw [if_neg hne]
      rfl
    conv_lhs => rw [h1, fsWrite, if_pos h2]
    rw [List.map_append, h3, h1]
    simp


/-- Claim C7: saving to JSON a second time with the same progressions and
destination overwrites `chord_progressions.json` with identical content,
leaving the directory exactly as after the first save. -/
theorem save_json_idempotent (progs : List (List (List Int))) (dir : Str) (fs : Fs) :
    (Chord_progression_generator.init.save_chord_progressions progs dir "json".data
      (Chord_progression_generator.init.save_chord_progressions progs dir
        "json".data fs).2.1).2.1 =
    (Chord_progression_generator.init.save_chord_progressions progs dir
      "json".data fs).2.1 := by
  unfold Chord_progression_generator.save_chord_progressions
  rw [if_neg (by decide), if_pos rfl]
  exact fsWrite_idem fs (pathJoin dir "chord_progressions.json".data)
    (FileData.text (dumpJson progs))

/-- The save method never changes the generator object. -/
theorem save_fst (self : Chord_progression_generator)
    (progs : List (List (List Int))) (dir ft : Str) (fs : Fs) :
    (self.save_chord_progressions progs dir ft fs).1 = self := by
  unfold Chord_progression_generator.save_chord_progressions
  by_cases h1 : ft = "midi".data ∨ ft = "xml".data
  · rw [if_pos h1]
  · rw [if_neg h1]
    by_cases h2 : ft = "json".data
    · rw [if_pos h2]
    · rw [if_neg h2]

/-- Claim C8: the generator is immutable after construction: generation and
saving return the generator object unchanged, in particular with the chord
vocabulary and the major/minor template fields at their post-construction
values. -/
theorem generator_immutable (n : Int) (progs : List (List (List Int)))
    (dir ft : Str) (fs : Fs) :
    (Chord_progression_generator.init.generate_chord_progressions n).1 =
      Chord_progression_generator.init ∧
    (Chord_progression_generator.init.save_chord_progressions progs dir ft fs).1 =
      Chord_progression_generator.init ∧
    (Chord_progression_generator.init.generate_chord_progressions n).1.chord_templates =
      Chord_progression_generator.init.chord_templates ∧
    (Chord_progression_generator.init.generate_chord_progressions n).1.major_chord_template =
      Chord_progression_generator.init.major_chord_template ∧
    (Chord_progression_generator.init.generate_chord_progressions n).1.minor_chord_template =
      Chord_progression_generator.init.minor_chord_template :=
  ⟨rfl, save_fst _ progs dir ft fs, rfl, rfl, rfl⟩

/-- Claim C10: for a file type other than midi, xml or json, or for midi/xml
with an empty progression list, no branch assigns `file_path`, so nothing is
written (the directory is unchanged) and the final success `print` fails with
an unbound-variable error (modelled as the `none` outcome). -/
theorem save_unbound_file_path (progs : List (List (List Int)))
    (dir ft : Str) (fs : Fs)
    (h : (ft ≠ "midi".data ∧ ft ≠ "xml".data ∧ ft ≠ "json".data) ∨
      ((ft = "midi".data ∨ ft = "xml".data) ∧ progs = [])) :
    (Chord_progression_generator.init.save_chord_progressions progs dir ft fs).2.2 = none ∧
    (Chord_progression_generator.init.save_chord_progressions progs dir ft fs).2.1 = fs := by
  unfold Chord_progression_generator.save_chord_progressions
  rcases h with ⟨h1, h2, h3⟩ | ⟨h1, h2⟩
  · rw [if_neg (by tauto), if_neg h3]
    exact ⟨rfl, rfl⟩
  · rw [if_pos h1, h2]
    exact ⟨rfl, rfl⟩

/-- Witness for C10: file type `"wav"` leaves the directory unchanged and
hits the unbound `file_path` at the final print. -/
theorem save_unbound_file_path_witness :
    (("wav".data ≠ "midi".data ∧ "wav".data ≠ "xml".data ∧ "wav".data ≠ "json".data) ∨
      (("wav".data = "midi".data ∨ "wav".data = "xml".data) ∧
        ([[[60]]] : List (List (List Int))) = [])) ∧
    ((Chord_progression_generator.init.save_chord_progressions [[[60]]] ['d']
        "wav".data []).2.2 = none ∧
      (Chord_progression_generator.init.save_chord_progressions [[[60]]] ['d']
        "wav".data []).2.1 = []) :=
  ⟨Or.inl (by decide), save_unbound_file_path [[[60]]] ['d'] "wav".data []
    (Or.inl (by decide))⟩

/-- Every character of `spaces k` is JSON whitespace. -/
theorem allWs_spaces (k : Nat) : allWs (spaces k) := by
  intro c hc
  have hcs : c = ' ' := List.eq_of_mem_replicate (by simpa [spaces] using hc)
  rw [hcs]
  decide

/-- A newline followed by spaces is all JSON whitespace. -/
theorem allWs_nl_spaces (k : Nat) : allWs ('\n' :: spaces k) := by
  intro c hc
  rcases List.mem_cons.mp hc with rfl | hc2
  · decide
  · exact allWs_spaces k c hc2

/-- Skipping whitespace passes over an all-whitespace prefix. -/
theorem skipWs_append (ws s : Str) (h : allWs ws) :
    skipWs (ws ++ s) = skipWs s := by
  induction ws with
  | nil => rfl
  | cons c cs ih =>
    rw [List.cons_append]
    simp only [skipWs]
    rw [if_pos (h c (List.mem_cons_self c cs))]
    exact ih (fun x hx => h x (List.mem_cons_of_mem c hx))

/-- Skipping whitespace stops at a non-whitespace character. -/
theorem skipWs_cons_not (c : Char) (t : Str) (h : isJsonWs c = false) :
    skipWs (c :: t) = c :: t := by
  simp [skipWs, h]

/-- A maximal digit scan consumes exactly an all-digit prefix when the
remainder does not begin with a digit. -/
theorem takeDigits_append (ds rest : Str) (hd : ∀ c ∈ ds, c.isDigit = true)
    (hr : headNotDigit rest) : takeDigits (ds ++ rest) = (ds, rest) := by
  induction ds with
  | nil =>
    rw [List.nil_append]
    cases rest with
    | nil => rfl
    | cons c cs =>
      have hc : c.isDigit = false := hr
      simp [takeDigits, hc]
  | cons c cs ih =>
    have hdc : c.isDigit = true := hd c (List.mem_cons_self c cs)
    have ih2 := ih (fun x hx => hd x (List.mem_cons_of_mem c hx))
    simp [takeDigits, hdc, ih2]

/-- A JSON whitespace character is not a digit. -/
theorem ws_not_digit {c : Char} (h : isJsonWs c = true) : c.isDigit = false := by
  simp only [isJsonWs, Bool.or_eq_true, beq_iff_eq] at h
  rcases h with ((rfl | rfl) | rfl) | rfl <;> decide

/-- A digit character is not JSON whitespace. -/
theorem digit_not_ws {c : Char} (h : c.isDigit = true) : isJsonWs c = false := by
  rcases Bool.eq_false_or_eq_true (isJsonWs c) with ht | hf
  · rw [ws_not_digit ht] at h
    simp at h
  · exact hf

/-- A digit character is not a closing bracket. -/
theorem digit_ne_rbracket {c : Char} (h : c.isDigit = true) : c ≠ ']' := by
  intro hc
  rw [hc] at h
  simp at h

/-- A digit character is not a minus sign. -/
theorem digit_ne_minus {c : Char} (h : c.isDigit = true) : c ≠ '-' := by
  intro hc
  rw [hc] at h
  simp at h

/-- `natRepr` starts with a digit. -/
theorem natRepr_cons (n : Nat) :
    ∃ c cs, natRepr n = c :: cs ∧ c.isDigit = true := by
  rcases List.exists_cons_of_ne_nil (natRepr_ne_nil n) with ⟨c, cs, hc⟩
  refine ⟨c, cs, hc, natRepr_isDigit n c ?_⟩
  rw [hc]
  exact List.mem_cons_self c cs

/-- `intRepr` starts with a minus sign or a digit, so never with
whitespace or a closing bracket. -/
theorem intRepr_head (n : Int) :
    ∃ c cs, intRepr n = c :: cs ∧ isJsonWs c = false ∧ c ≠ ']' := by
  by_cases hn : n < 0
  · exact ⟨'-', natRepr (-n).toNat, by rw [intRepr, if_pos hn], by decide, by decide⟩
  · rcases natRepr_cons n.toNat with ⟨c, cs, hc, hcd⟩
    exact ⟨c, cs, by rw [intRepr, if_neg hn, hc], digit_not_ws hcd,
      digit_ne_rbracket hcd⟩

/-- Parsing an integer after its serialization recovers it exactly, when
what follows does not begin with a digit. -/
theorem parseInt_dump (n : Int) (ws rest : Str) (hws : allWs ws)
    (hrd : headNotDigit rest) :
    parseInt (ws ++ (intRepr n ++ rest)) = some (n, rest) := by
  by_cases hn : n < 0
  · have hdump : intRepr n = '-' :: natRepr (-n).toNat := by
      rw [intRepr, if_pos hn]
    have hskip : skipWs (ws ++ (intRepr n ++ rest)) =
        '-' :: (natRepr (-n).toNat ++ rest) := by
      rw [skipWs_append ws _ hws, hdump, List.cons_append]
      exact skipWs_cons_not '-' _ (by decide)
    simp only [parseInt, hskip, List.head?_cons, List.tail_cons]
    rw [if_pos trivial, takeDigits_append _ _ (natRepr_isDigit _) hrd]
    have htn : (((-n).toNat : Nat) : Int) = -n := Int.toNat_of_nonneg (by omega)
    simp [natRepr_ne_nil, digitsVal_natRepr, htn]
  · have hdump : intRepr n = natRepr n.toNat := by rw [intRepr, if_neg hn]
    rcases natRepr_cons n.toNat with ⟨c, cs, hc, hcd⟩
    have hskip : skipWs (ws ++ (intRepr n ++ rest)) = natRepr n.toNat ++ rest := by
      rw [skipWs_append ws _ hws, hdump, hc, List.cons_append]
      exact skipWs_cons_not c _ (digit_not_ws hcd)
    have hhead : (natRepr n.toNat ++ rest).head? = some c := by
      rw [hc]
      rfl
    have hne : ¬((natRepr n.toNat ++ rest).head? = some '-') := by
      rw [hhead]
      intro hcc
      exact digit_ne_minus hcd (Option.some.inj hcc)
    simp only [parseInt, hskip]
    rw [if_neg hne, takeDigits_append _ _ (natRepr_isDigit _) hrd]
    have htn : ((n.toNat : Nat) : Int) = n := Int.toNat_of_nonneg (by omega)
    simp [natRepr_ne_nil, digitsVal_natRepr, htn]

/-- `dumpTail` of no further elements is empty. -/
theorem dumpTail_nil {α : Type} (dumpE : α → Str) (d : Nat) :
    dumpTail dumpE d [] = [] := rfl

/-- `dumpTail` of a further element: comma, newline, indentation, the
element, then the rest. -/
theorem dumpTail_cons {α : Type} (dumpE : α → Str) (d : Nat) (b : α) (bs : List α) :
    dumpTail dumpE d (b :: bs) =
      ',' :: '\n' :: (spaces (4 * (d + 1)) ++ (dumpE b ++ dumpTail dumpE d bs)) := by
  simp [dumpTail, List.append_assoc]

/-- After an array element, the serialized stream continues with a comma or
a newline — never a digit, so integer parsing stops exactly there. -/
theorem dumpTail_headNotDigit {α : Type} (dumpE : α → Str) (d : Nat)
    (as : List α) (z : Str) :
    headNotDigit (dumpTail dumpE d as ++ '\n' :: z) := by
  cases as with
  | nil =>
    rw [dumpTail_nil, List.nil_append]
    show ('\n').isDigit = false
    decide
  | cons b bs =>
    rw [dumpTail_cons, List.cons_append]
    show (',').isDigit = false
    decide

/-- Each further element contributes at least one character. -/
theorem dumpTail_length {α : Type} (dumpE : α → Str) (d : Nat) (as : List α) :
    as.length ≤ (dumpTail dumpE d as).length := by
  induction as with
  | nil => simp [dumpTail]
  | cons b bs ih =>
    rw [dumpTail_cons]
    simp only [List.length_cons, List.length_append]
    omega

/-- Every serialized array starts with an opening bracket. -/
theorem dumpList_head {α : Type} (dumpE : α → Str) (d : Nat) (l : List α) :
    ∃ cs, dumpList dumpE d l = '[' :: cs := by
  cases l with
  | nil => exact ⟨[']'], rfl⟩
  | cons a as => exact ⟨_, rfl⟩

/-- Parsing the continuation of a serialized array after its first element
collects the remaining elements and stops right after the closing bracket,
given enough fuel. -/
theorem parseListAux_dump {α : Type} (pe : Str → Option (α × Str))
    (dumpE : α → Str) (d : Nat)
    (hpe : ∀ (a : α) (ws rest : Str), allWs ws → headNotDigit rest →
      pe (ws ++ (dumpE a ++ rest)) = some (a, rest)) :
    ∀ (as acc : List α) (rest : Str) (fuel : Nat), as.length + 1 ≤ fuel →
    parseListAux pe fuel acc
      (dumpTail dumpE d as ++ '\n' :: (spaces (4 * d) ++ (']' :: rest))) =
      some (acc.reverse ++ as, rest) := by
  intro as
  induction as with
  | nil =>
    intro acc rest fuel hfuel
    cases fuel with
    | zero => omega
    | succ f =>
      rw [dumpTail_nil, List.nil_append]
      simp only [parseListAux]
      have hsk : skipWs ('\n' :: (spaces (4 * d) ++ (']' :: rest))) = ']' :: rest := by
        have h1 : '\n' :: (spaces (4 * d) ++ (']' :: rest)) =
            ('\n' :: spaces (4 * d)) ++ (']' :: rest) := by simp
        rw [h1, skipWs_append _ _ (allWs_nl_spaces _)]
        exact skipWs_cons_not ']' _ (by decide)
      rw [hsk]
      simp only [List.head?_cons, List.tail_cons]
      rw [if_pos trivial]
      simp
  | cons a as2 ih =>
    intro acc rest fuel hfuel
    cases fuel with
    | zero => simp at hfuel
    | succ f =>
      rw [dumpTail_cons, List.cons_append, List.cons_append, List.append_assoc,
        List.append_assoc]
      simp only [parseListAux]
      rw [skipWs_cons_not ',' _ (by decide)]
      simp only [List.head?_cons, List.tail_cons]
      rw [if_neg (by decide), if_pos trivial]
      have hform : '\n' :: (spaces (4 * (d + 1)) ++ (dumpE a ++
          (dumpTail dumpE d as2 ++ '\n' :: (spaces (4 * d) ++ (']' :: rest))))) =
          ('\n' :: spaces (4 * (d + 1))) ++ (dumpE a ++
          (dumpTail dumpE d as2 ++ '\n' :: (spaces (4 * d) ++ (']' :: rest)))) := by
        simp
      rw [hform, hpe a _ _ (allWs_nl_spaces _) (dumpTail_headNotDigit dumpE d as2 _)]
      show parseListAux pe f (a :: acc)
          (dumpTail dumpE d as2 ++ '\n' :: (spaces (4 * d) ++ (']' :: rest))) = _
      rw [ih (a :: acc) rest f (by simp at hfuel ⊢; omega)]
      simp

/-- Parsing a serialized array surrounded by whitespace recovers exactly
the original list and leaves the remainder untouched. -/
theorem parseListOf_dump {α : Type} (pe : Str → Option (α × Str))
    (dumpE : α → Str) (d : Nat)
    (hpe : ∀ (a : α) (ws rest : Str), allWs ws → headNotDigit rest →
      pe (ws ++ (dumpE a ++ rest)) = some (a, rest))
    (hstart : ∀ a : α, ∃ c cs, dumpE a = c :: cs ∧ isJsonWs c = false ∧ c ≠ ']') :
    ∀ (l : List α) (ws rest : Str), allWs ws →
    parseListOf pe (ws ++ (dumpList dumpE d l ++ rest)) = some (l, rest) := by
  intro l ws rest hws
  cases l with
  | nil =>
    show parseListOf pe (ws ++ ('[' :: (']' :: rest))) = some ([], rest)
    simp only [parseListOf]
    rw [skipWs_append _ _ hws, skipWs_cons_not '[' _ (by decide)]
    simp only [List.head?_cons, List.tail_cons]
    rw [if_pos trivial, skipWs_cons_not ']' _ (by decide)]
    simp only [List.head?_cons, List.tail_cons]
    rw [if_pos trivial]
  | cons a as =>
    rcases hstart a with ⟨c, cs, hc, hcw, hcr⟩
    show parseListOf pe (ws ++ (('[' :: '\n' :: (spaces (4 * (d + 1)) ++
      dumpE a ++ dumpTail dumpE d as ++ '\n' :: (spaces (4 * d) ++ [']']))) ++ rest)) =
      some (a :: as, rest)
    simp only [List.cons_append, List.append_assoc, List.singleton_append,
      List.nil_append]
    simp only [parseListOf]
    rw [skipWs_append _ _ hws, skipWs_cons_not '[' _ (by decide)]
    simp only [List.head?_cons, List.tail_cons]
    rw [if_pos trivial]
    have hu : skipWs ('\n' :: (spaces (4 * (d + 1)) ++ (dumpE a ++
        (dumpTail dumpE d as ++ '\n' :: (spaces (4 * d) ++ (']' :: rest)))))) =
        c :: (cs ++ (dumpTail dumpE d as ++ '\n' :: (spaces (4 * d) ++ (']' :: rest)))) := by
      have h2 : '\n' :: (spaces (4 * (d + 1)) ++ (dumpE a ++
          (dumpTail dumpE d as ++ '\n' :: (spaces (4 * d) ++ (']' :: rest))))) =
          ('\n' :: spaces (4 * (d + 1))) ++ (dumpE a ++
          (dumpTail dumpE d as ++ '\n' :: (spaces (4 * d) ++ (']' :: rest)))) := by
        simp
      rw [h2, skipWs_append _ _ (allWs_nl_spaces _), hc, List.cons_append]
      exact skipWs_cons_not c _ hcw
    rw [hu]
    simp only [List.head?_cons]
    rw [if_neg (fun hcc => hcr (Option.some.inj hcc))]
    have hform : '\n' :: (spaces (4 * (d + 1)) ++ (dumpE a ++
        (dumpTail dumpE d as ++ '\n' :: (spaces (4 * d) ++ (']' :: rest))))) =
        ('\n' :: spaces (4 * (d + 1))) ++ (dumpE a ++
        (dumpTail dumpE d as ++ '\n' :: (spaces (4 * d) ++ (']' :: rest)))) := by
      simp
    rw [hform, hpe a _ _ (allWs_nl_spaces _) (dumpTail_headNotDigit dumpE d as _)]
    show parseListAux pe
        ((dumpTail dumpE d as ++ '\n' :: (spaces (4 * d) ++ (']' :: rest))).length + 1)
        [a] (dumpTail dumpE d as ++ '\n' :: (spaces (4 * d) ++ (']' :: rest))) = _
    rw [parseListAux_dump pe dumpE d hpe as [a] rest _ ?hfuel]
    · simp
    case hfuel =>
      have h3 := dumpTail_length dumpE d as
      simp only [List.length_append]
      omega

/-- Chord-level roundtrip: parsing a serialized chord recovers it. -/
theorem parseChord_dump (a : List Int) (ws rest : Str) (hws : allWs ws)
    (hrd : headNotDigit rest) :
    parseChord (ws ++ (dumpChord a ++ rest)) = some (a, rest) :=
  parseListOf_dump parseInt intRepr 2 parseInt_dump intRepr_head a ws rest hws

/-- `dumpChord` starts with an opening bracket. -/
theorem dumpChord_head (a : List Int) :
    ∃ c cs, dumpChord a = c :: cs ∧ isJsonWs c = false ∧ c ≠ ']' := by
  rcases dumpList_head intRepr 2 a with ⟨cs, hcs⟩
  exact ⟨'[', cs, hcs, by decide, by decide⟩

/-- Progression-level roundtrip: parsing a serialized progression
recovers it. -/
theorem parseProg_dump (a : List (List Int)) (ws rest : Str) (hws : allWs ws)
    (hrd : headNotDigit rest) :
    parseProg (ws ++ (dumpProg a ++ rest)) = some (a, rest) :=
  parseListOf_dump parseChord dumpChord 1 parseChord_dump dumpChord_head a ws rest hws

/-- `dumpProg` starts with an opening bracket. -/
theorem dumpProg_head (a : List (List Int)) :
    ∃ c cs, dumpProg a = c :: cs ∧ isJsonWs c = false ∧ c ≠ ']' := by
  rcases dumpList_head dumpChord 1 a with ⟨cs, hcs⟩
  exact ⟨'[', cs, hcs, by decide, by decide⟩

/-- Full JSON roundtrip: `json.load` of the `json.dump(..., indent=4)`
output is the original nested-integer structure. -/
theorem parseJsonProgs_dumpJson (progs : List (List (List Int))) :
    parseJsonProgs (dumpJson progs) = some progs := by
  have h := parseListOf_dump parseProg dumpProg 0 parseProg_dump dumpProg_head
    progs [] [] (by intro c hc; simp at hc)
  rw [List.nil_append, List.append_nil] at h
  show parseJsonProgs (dumpList dumpProg 0 progs) = some progs
  simp only [parseJsonProgs, h]
  rfl

/-- Claim C6: saving with file type json into an empty destination
directory writes exactly one file, `chord_progressions.json`, holding the
`json.dump(..., indent=4)` rendering of the whole progression list; parsing
that content back yields the original nested-integer structure, order
preserved. -/
theorem save_json_file_and_roundtrip (progs : List (List (List Int))) (dir : Str) :
    (Chord_progression_generator.init.save_chord_progressions progs dir
        "json".data []).2.1 =
      [(pathJoin dir "chord_progressions.json".data, FileData.text (dumpJson progs))] ∧
    parseJsonProgs (dumpJson progs) = some progs := by
  constructor
  · unfold Chord_progression_generator.save_chord_progressions
    rw [if_neg (by decide), if_pos rfl]
    rfl
  · exact parseJsonProgs_dumpJson progs
